import Mathlib

/-!
Verification of the mushin reverse-mode automatic differentiation engine.

The repository contains two generations of the engine:

* an index-based tape (`src/context/tape.rs`, `src/context/function.rs`,
  `src/gradient.rs`, `src/tensor.rs`): the computation graph is a vector of
  `Function` entries, each referring to its parameters by vector index, and
  `Gradients::compute` performs the backward pass over that vector in reverse
  index (creation) order;
* an Rc-shared node graph (`src/graph/node.rs`, `src/graph/tape.rs`,
  `src/tensor/variable.rs`, `src/tensor/constant.rs`): nodes carry a process
  wide id fetched from a global counter, tapes are `BTreeMap`s keyed by id,
  and `impl Drop for Node` decrements the counter.

Tensor values (`arrayfire::Array<f32>`) are modelled with exact rationals:
as a single scalar for the index-based generation (all the cited claims there
are about graph wiring and accumulation, which is element-wise), and as a
dims-tagged list of rationals for the node generation, where shape matters.
Reverse rules (Rust `fn` pointers) are modelled as Lean functions.
-/

namespace Mushin

/-- Scalar model of an `arrayfire::Array<f32>` value in the index-based
generation; exact rationals stand in for `f32`. -/
abbrev Val := ℚ

/-- `src/context/function.rs` `VariableParameter` (a.k.a. `VariableArg`):
the recorded forward value of a variable argument together with the tape
index of the function that produced it. -/
structure VariableParameter where
  value : Val
  index : Nat

/-- `src/context/function.rs` `ConstantParameter` (a.k.a. `ConstantArg`):
the recorded forward value of a constant argument. -/
structure ConstantParameter where
  value : Val

/-- `src/context/function.rs` `DoubleParameter` (a.k.a. `DoubleArg`): the
three tracked/untracked combinations a recorded binary function can have. -/
inductive DoubleParameter where
  | variableConstant (x : VariableParameter) (y : ConstantParameter)
  | constantVariable (x : ConstantParameter) (y : VariableParameter)
  | variableVariable (x : VariableParameter) (y : VariableParameter)

/-- `src/context/function.rs` `Function`: one node of the index-based tape.
`reverse` functions model the Rust `fn` pointers
(`SingleParamReverseFn` / `DoubleParamReverseFn`). -/
inductive Function where
  | nary
  | unary (param : VariableParameter) (reverse : Val → Val → Val)
  | binary (params : DoubleParameter) (reverse : Val → Val → Val → Val × Val)

/-- Tape indices referenced by a function (the `index` fields of its
variable parameters). -/
def Function.refs : Function → List Nat
  | .nary => []
  | .unary param _ => [param.index]
  | .binary (.variableConstant x _) _ => [x.index]
  | .binary (.constantVariable _ y) _ => [y.index]
  | .binary (.variableVariable x y) _ => [x.index, y.index]

/-- One iteration of the loop body of `Gradients::compute`
(`src/gradient.rs`): process the function recorded at tape index `i`,
reading the adjoint `gradients[i]` and adding each computed partial into
the gradient slot of the corresponding parameter. For
`VariableVariable` both partials are computed first and then accumulated
sequentially, exactly as in the source. -/
def Gradients.step (tape : List Function) (g : List Val) (i : Nat) : List Val :=
  match tape.getD i .nary with
  | .nary => g
  | .unary param reverse =>
      let p := reverse (g.getD i 0) param.value
      g.set param.index (g.getD param.index 0 + p)
  | .binary (.variableConstant x y) reverse =>
      let p := reverse (g.getD i 0) x.value y.value
      g.set x.index (g.getD x.index 0 + p.1)
  | .binary (.constantVariable x y) reverse =>
      let p := reverse (g.getD i 0) x.value y.value
      g.set y.index (g.getD y.index 0 + p.2)
  | .binary (.variableVariable x y) reverse =>
      let p := reverse (g.getD i 0) x.value y.value
      let g1 := g.set x.index (g.getD x.index 0 + p.1)
      g1.set y.index (g1.getD y.index 0 + p.2)

/-- The reverse scan of `Gradients::compute`: fold `Gradients.step` over a
list of tape indices (the source iterates `enumerate().rev()`). -/
def Gradients.revSteps (tape : List Function) (g : List Val) (idxs : List Nat) : List Val :=
  idxs.foldl (Gradients.step tape) g

/-- `Gradients::compute` (`src/gradient.rs`): gradients start all-zero, the
root slot is seeded with one (the all-ones seed of the scalar model), and
the tape is scanned in reverse index order. -/
def Gradients.compute (tape : List Function) (root : Nat) : List Val :=
  Gradients.revSteps tape ((List.replicate tape.length 0).set root 1) (List.range tape.length).reverse

/-- `src/tensor.rs` `Origin` of a tensor in the index-based generation:
`None` for constants, `Function(index)` for tracked variables. -/
inductive TOrigin where
  | none
  | function (index : Nat)

/-- Tracked-ness observer: a tensor is tracked exactly when its origin
refers to a tape function. -/
def TOrigin.isTracked : TOrigin → Bool
  | .none => false
  | .function _ => true

/-- `Tape::push_function` (`src/context/tape.rs`): append the function and
return its index (the tape length before the push). -/
def pushFunction (tape : List Function) (f : Function) : List Function × Nat :=
  (tape ++ [f], tape.length)

/-- `Function::unary` (`src/context/function.rs`): if the argument is a
variable, record a unary function and return its origin; a single argument
function applied to a constant is a constant and records nothing. -/
def Function.unaryDispatch (tape : List Function) (argOrigin : TOrigin) (argValue : Val)
    (backward : Val → Val → Val) : List Function × TOrigin :=
  match argOrigin with
  | .function f =>
      let pushed := pushFunction tape (.unary ⟨argValue, f⟩ backward)
      (pushed.1, .function pushed.2)
  | .none => (tape, .none)

/-- `Function::binary` (`src/context/function.rs`): record a binary
function if at least one argument is a variable; if both arguments are
constants the result is a constant and nothing is recorded. -/
def Function.binaryDispatch (tape : List Function) (aOrigin : TOrigin) (aValue : Val)
    (bOrigin : TOrigin) (bValue : Val) (backward : Val → Val → Val → Val × Val) :
    List Function × TOrigin :=
  match aOrigin, bOrigin with
  | .none, .none => (tape, .none)
  | .function fa, .none =>
      let pushed := pushFunction tape (.binary (.variableConstant ⟨aValue, fa⟩ ⟨bValue⟩) backward)
      (pushed.1, .function pushed.2)
  | .none, .function fb =>
      let pushed := pushFunction tape (.binary (.constantVariable ⟨aValue⟩ ⟨bValue, fb⟩) backward)
      (pushed.1, .function pushed.2)
  | .function fa, .function fb =>
      let pushed :=
        pushFunction tape (.binary (.variableVariable ⟨aValue, fa⟩ ⟨bValue, fb⟩) backward)
      (pushed.1, .function pushed.2)

end Mushin

namespace Mushin.Graph

/-- `arrayfire` `Dim4`: the four dimensions of an array. -/
structure Dim4 where
  d1 : Nat
  d2 : Nat
  d3 : Nat
  d4 : Nat
deriving DecidableEq

/-- Number of elements of an array with the given dimensions. -/
def Dim4.size (d : Dim4) : Nat := d.d1 * d.d2 * d.d3 * d.d4

/-- Model of `arrayfire::Array<f32>` in the node generation: dimensions
plus the element list, with exact rationals for `f32`. -/
structure Arr where
  dims : Dim4
  vals : List ℚ
deriving DecidableEq

/-- `arrayfire::constant(v, dims)`. -/
def Arr.constant (v : ℚ) (d : Dim4) : Arr := ⟨d, List.replicate d.size v⟩

/-- Element-wise `arrayfire::sub` of same-shape arrays. -/
def Arr.sub (a b : Arr) : Arr := ⟨a.dims, List.zipWith (fun x y => x - y) a.vals b.vals⟩

/-- Scalar broadcast product `c * array`. -/
def Arr.scale (c : ℚ) (a : Arr) : Arr := ⟨a.dims, a.vals.map (fun v => c * v)⟩

/-- `src/graph/node.rs` `NodeId`. -/
abbrev NodeId := Nat

/-- `src/graph/node.rs` `UnaryReverseFn`. -/
def UnaryReverseFn := Arr → List Arr → Arr

/-- `src/graph/node.rs` `BinaryReverseFn`. -/
def BinaryReverseFn := Arr → List Arr → Arr × Arr

/-- `src/graph/node.rs` `BinaryParams`: which parameters of a binary
operation are variables. The `Rc<Node>` ancestor references are modelled
by the `NodeId` of the ancestor, the key under which every tape stores the
shared node. -/
inductive BinaryParams where
  | varVar (a b : NodeId)
  | varConst (a : NodeId)
  | constVar (b : NodeId)

/-- `src/graph/node.rs` `UnaryOp`. -/
structure UnaryOp where
  ancestor : NodeId
  reverse : UnaryReverseFn
  args : List Arr

/-- `src/graph/node.rs` `BinaryOp`. -/
structure BinaryOp where
  ancestors : BinaryParams
  reverse : BinaryReverseFn
  args : List Arr

/-- `src/graph/node.rs` `Origin`. -/
inductive Origin where
  | declaration
  | unary (op : UnaryOp)
  | binary (op : BinaryOp)

/-- `src/graph/node.rs` `Node`. -/
structure Node where
  id : NodeId
  data : Arr
  grad : Arr
  origin : Origin

/-- `Node::new`: data as given, gradient `constant(0.0, data.dims())`, id
fetched from the global counter by `COUNTER.fetch_add(1)` (which returns
the previous counter value); the bumped counter is returned alongside. -/
def Node.new (counter : Nat) (data : Arr) (origin : Origin) : Node × Nat :=
  (⟨counter, data, Arr.constant 0 data.dims, origin⟩, counter + 1)

/-- `Node::declaration`. -/
def Node.declaration (counter : Nat) (data : Arr) : Node × Nat :=
  Node.new counter data .declaration

/-- `Node::unary`. -/
def Node.unary (counter : Nat) (data : Arr) (ancestor : NodeId)
    (reverse : UnaryReverseFn) (args : List Arr) : Node × Nat :=
  Node.new counter data (.unary ⟨ancestor, reverse, args⟩)

/-- `Node::binary_varvar`. -/
def Node.binary_varvar (counter : Nat) (data : Arr) (ancestors : NodeId × NodeId)
    (reverse : BinaryReverseFn) (args : List Arr) : Node × Nat :=
  Node.new counter data (.binary ⟨.varVar ancestors.1 ancestors.2, reverse, args⟩)

/-- `Node::binary_varconst`. -/
def Node.binary_varconst (counter : Nat) (data : Arr) (ancestor : NodeId)
    (reverse : BinaryReverseFn) (args : List Arr) : Node × Nat :=
  Node.new counter data (.binary ⟨.varConst ancestor, reverse, args⟩)

/-- `Node::binary_constvar`. -/
def Node.binary_constvar (counter : Nat) (data : Arr) (ancestor : NodeId)
    (reverse : BinaryReverseFn) (args : List Arr) : Node × Nat :=
  Node.new counter data (.binary ⟨.constVar ancestor, reverse, args⟩)

/-- `Node::ones_grad`. -/
def Node.ones_grad (n : Node) : Node := { n with grad := Arr.constant 1 n.grad.dims }

/-- `Node::zero_grad`. -/
def Node.zero_grad (n : Node) : Node := { n with grad := Arr.constant 0 n.grad.dims }

/-- `Node::is_declaration`. -/
def Node.is_declaration (n : Node) : Bool :=
  match n.origin with
  | .declaration => true
  | _ => false

/-- Observer: the ids referenced by the origin of a node. -/
def Node.ancestorIds (n : Node) : List NodeId :=
  match n.origin with
  | .declaration => []
  | .unary op => [op.ancestor]
  | .binary op =>
      match op.ancestors with
      | .varVar a b => [a, b]
      | .varConst a => [a]
      | .constVar b => [b]

/-- `BTreeMap::insert` on a key-sorted association list: replaces the
entry on an equal key, keeps keys strictly sorted otherwise. -/
def insertSorted (k : NodeId) (v : Node) : List (NodeId × Node) → List (NodeId × Node)
  | [] => [(k, v)]
  | (k2, v2) :: rest =>
      if k < k2 then (k, v) :: (k2, v2) :: rest
      else if k = k2 then (k, v) :: rest
      else (k2, v2) :: insertSorted k v rest

/-- `src/graph/tape.rs` `Tape`: a `BTreeMap<NodeId, Rc<Node>>`, modelled
as a key-sorted association list. -/
structure Tape where
  entries : List (NodeId × Node)

/-- `Tape::default()`. -/
def Tape.default : Tape := ⟨[]⟩

/-- `Tape::push`: insert keyed by the id of the node. -/
def Tape.push (t : Tape) (n : Node) : Tape := ⟨insertSorted n.id n t.entries⟩

/-- `BTreeMap::get`. -/
def Tape.lookup (t : Tape) (k : NodeId) : Option Node :=
  (t.entries.find? (fun e => e.1 == k)).map Prod.snd

/-- `Tape::nodes`: the values in key order. -/
def Tape.nodes (t : Tape) : List Node := t.entries.map Prod.snd

/-- `Tape::merge`: clone self, then `extend` with the entries of the other map
(each insert overwrites an existing entry with the same key). -/
def Tape.merge (t other : Tape) : Tape :=
  ⟨other.entries.foldl (fun acc e => insertSorted e.1 e.2 acc) t.entries⟩

/-- Representation invariant of the `BTreeMap` model: keys strictly
sorted. -/
def Tape.Wf (t : Tape) : Prop := t.entries.Pairwise (fun a b => a.1 < b.1)

instance Tape.decidableWf (t : Tape) : Decidable t.Wf :=
  inferInstanceAs (Decidable (t.entries.Pairwise fun a b : NodeId × Node => a.1 < b.1))

/-- `src/tensor/variable.rs` `Variable`. -/
structure Variable where
  tape : Tape
  node : Node

/-- `Variable::new`: the node is pushed to the tape. -/
def Variable.new (tape : Tape) (node : Node) : Variable := ⟨tape.push node, node⟩

/-- `Variable::grad`. -/
def Variable.grad (v : Variable) : Arr := v.node.grad

/-- `src/tensor/constant.rs` `Constant`. -/
structure Constant where
  value : Arr

/-- `Constant::new`. -/
def Constant.new (data : Arr) : Constant := ⟨data⟩

/-- `impl Data for Variable`, `push_unary`: a new unary node on this
node of this variable, pushed onto a clone of its tape. -/
def Variable.push_unary (x : Variable) (counter : Nat) (data : Arr)
    (reverse : UnaryReverseFn) (args : List Arr) : Variable × Nat :=
  let nc := Node.unary counter data x.node.id reverse args
  (Variable.new x.tape nc.1, nc.2)

/-- `impl Pair<Variable> for Variable`, `push_binary`: a `binary_varvar`
node, pushed onto the merge of both tapes. -/
def Variable.push_binary_var (x y : Variable) (counter : Nat) (data : Arr)
    (reverse : BinaryReverseFn) (args : List Arr) : Variable × Nat :=
  let nc := Node.binary_varvar counter data (x.node.id, y.node.id) reverse args
  (Variable.new (x.tape.merge y.tape) nc.1, nc.2)

/-- `impl Pair<Constant> for Variable`, `push_binary`: a `binary_varconst`
node on a clone of the tape of the variable. -/
def Variable.push_binary_const (x : Variable) (_y : Constant) (counter : Nat) (data : Arr)
    (reverse : BinaryReverseFn) (args : List Arr) : Variable × Nat :=
  let nc := Node.binary_varconst counter data x.node.id reverse args
  (Variable.new x.tape nc.1, nc.2)

/-- `impl Pair<Variable> for Constant`, `push_binary`: a `binary_constvar`
node on a clone of the tape of the variable operand. -/
def Constant.push_binary_var (_x : Constant) (y : Variable) (counter : Nat) (data : Arr)
    (reverse : BinaryReverseFn) (args : List Arr) : Variable × Nat :=
  let nc := Node.binary_constvar counter data y.node.id reverse args
  (Variable.new y.tape nc.1, nc.2)

/-- `impl Pair<Constant> for Constant`, `push_binary`: plain data, no node
is constructed and no counter id is consumed. -/
def Constant.push_binary_const (_x _y : Constant) (data : Arr) : Constant :=
  Constant.new data

/-- `impl Data for Constant`, `push_unary`: plain data, no node. -/
def Constant.push_unary (_x : Constant) (data : Arr) : Constant := Constant.new data

/-- Modelled from the spec: the tensor-level `freeze` method is absent from
src (only the `Linear` layer wrappers in `src/nn/layers/linear.rs` and the
`src/tensor/mod.rs` module docs refer to it). Per the spec lifecycle, a
`Variable` is consumed into a `Constant` by discarding its tape and node
and keeping only the data. -/
def Variable.freeze (v : Variable) : Constant := Constant.new v.node.data

/-- Modelled from the spec: the tensor-level `unfreeze` method is absent
from src (only wrappers and docs refer to it). Per the spec lifecycle, a
`Constant` is unfrozen by wrapping its value in a brand-new single-node
Declaration tape, starting a fresh history. -/
def Constant.unfreeze (c : Constant) (counter : Nat) : Variable × Nat :=
  let nc := Node.declaration counter c.value
  (Variable.new Tape.default nc.1, nc.2)

/-- Live-process state of the node arena: the global `COUNTER` and the
nodes currently alive, in creation order. -/
structure GraphState where
  counter : Nat
  alive : List Node

/-- Client-visible events against the global counter: creating a
declaration, creating a unary or binary node whose ancestors are existing
alive nodes (picked by position in the alive list, standing for the
`Rc<Node>` the caller holds), and dropping an alive node, which runs
`impl Drop for Node` and so `COUNTER.fetch_sub(1)`. -/
inductive Event where
  | declare (data : Arr)
  | unaryOn (k : Nat) (data : Arr) (reverse : UnaryReverseFn) (args : List Arr)
  | binaryOn (ka kb : Nat) (data : Arr) (reverse : BinaryReverseFn) (args : List Arr)
  | drop (k : Nat)

/-- One event against the arena. -/
def Event.apply (s : GraphState) : Event → GraphState
  | .declare data =>
      let nc := Node.declaration s.counter data
      ⟨nc.2, s.alive ++ [nc.1]⟩
  | .unaryOn k data reverse args =>
      match s.alive.get? k with
      | some anc =>
          let nc := Node.unary s.counter data anc.id reverse args
          ⟨nc.2, s.alive ++ [nc.1]⟩
      | none => s
  | .binaryOn ka kb data reverse args =>
      match s.alive.get? ka, s.alive.get? kb with
      | some anca, some ancb =>
          let nc := Node.binary_varvar s.counter data (anca.id, ancb.id) reverse args
          ⟨nc.2, s.alive ++ [nc.1]⟩
      | _, _ => s
  | .drop k =>
      if k < s.alive.length then ⟨s.counter - 1, s.alive.eraseIdx k⟩ else s

/-- Run a trace of events from a fresh process (counter 0, nothing
alive). -/
def runTrace (events : List Event) : GraphState :=
  events.foldl Event.apply ⟨0, []⟩

/-- `src/nn/optimizers.rs` `SGD`: learning rate and the ids of the
parameter nodes it holds. -/
structure SGD where
  lr : ℚ
  params : List NodeId

/-- `SGD::new`: keep only the nodes that are declarations. -/
def SGD.new (params : List Node) (lr : ℚ) : SGD :=
  ⟨lr, (params.filter Node.is_declaration).map Node.id⟩

/-- `SGD::step`: for every held parameter node, write
`data := data - lr * grad` through `Node::data_mut`. Modelled over the
arena of live nodes. -/
def SGD.step (o : SGD) (store : List Node) : List Node :=
  store.map (fun n =>
    if n.id ∈ o.params then { n with data := Arr.sub n.data (Arr.scale o.lr n.grad) } else n)

end Mushin.Graph

namespace Mushin

/-- Concrete tape of `backward_chain_rule_witness`: x is slot 0, y = square
of x (recorded value 2) at slot 2, z = cube-style op on y (recorded value 4)
at slot 4, with unrelated declarations interleaved at slots 1 and 3. -/
def chainTape : List Function :=
  [.nary, .nary, .unary ⟨2, 0⟩ (fun df v => df * (v + v)), .nary,
    .unary ⟨4, 2⟩ (fun df v => df * (3 * v * v))]

/-- Concrete tape of `backward_additive_accumulation_witness`: slot 0 is x
(value 3), slot 2 is f(x) with local derivative 2x, slot 4 is g(x) with
local derivative 5, slot 5 is z = f(x) + g(x); slots 1 and 3 are unrelated
declarations. -/
def fanOutTape : List Function :=
  [.nary, .nary, .unary ⟨3, 0⟩ (fun df v => df * (v + v)), .nary,
    .unary ⟨3, 0⟩ (fun df _ => df * 5),
    .binary (.variableVariable ⟨9, 2⟩ ⟨15, 4⟩) (fun df _ _ => (df, df))]

/-- Nodes and tapes used by the tape-merge witnesses, mirroring the
`merge_tapes` unit test of `src/graph/tape.rs`. -/
def wNode0 : Graph.Node := (Graph.Node.declaration 0 (Graph.Arr.constant 1 ⟨1, 2, 3, 4⟩)).1

def wNode1 : Graph.Node := (Graph.Node.declaration 1 (Graph.Arr.constant 1 ⟨1, 2, 3, 4⟩)).1

def wNode2 : Graph.Node := (Graph.Node.declaration 2 (Graph.Arr.constant 1 ⟨1, 2, 3, 4⟩)).1

def wTapeA : Graph.Tape := (Graph.Tape.default.push wNode0).push wNode1

def wTapeB : Graph.Tape := (Graph.Tape.default.push wNode1).push wNode2

/-- Two distinct nodes that collide on id 1, as id reuse after a drop can
produce. -/
def wNodeX : Graph.Node := (Graph.Node.declaration 1 (Graph.Arr.constant 5 ⟨1, 1, 1, 1⟩)).1

def wNodeY : Graph.Node := (Graph.Node.declaration 1 (Graph.Arr.constant 7 ⟨2, 1, 1, 1⟩)).1

def wTapeX : Graph.Tape := Graph.Tape.default.push wNodeX

def wTapeY : Graph.Tape := Graph.Tape.default.push wNodeY

/-- Variables used by the dispatch witness. -/
def wVarA : Graph.Variable := ⟨wTapeA, wNode1⟩

def wVarB : Graph.Variable := ⟨wTapeB, wNode2⟩

/-- A concrete binary reverse rule (that of addition). -/
def addRev : Graph.BinaryReverseFn := fun df _ => (df, df)

/-- Data used by the trace evaluations. -/
def unitArr : Graph.Arr := Graph.Arr.constant 0 ⟨1, 1, 1, 1⟩

/-- The identity unary reverse rule. -/
def idRev : Graph.UnaryReverseFn := fun df _ => df

/-- A declaration parameter node with gradient seeded to all-ones, as
after a backward pass (the state of the `sgd_step` test of the library). -/
def paramNode : Graph.Node :=
  ((Graph.Node.declaration 0 (Graph.Arr.constant 1 ⟨1, 1, 1, 1⟩)).1).ones_grad

example : Gradients.compute [.nary, .unary ⟨2, 0⟩ (fun df v => df * (v + v))] 1 = [4, 1] := by
  norm_num [Gradients.compute, Gradients.revSteps, Gradients.step, List.range_succ,
    List.replicate_succ]

theorem getD_set_ne (l : List Val) (k j : Nat) (v : Val) (h : k ≠ j) :
    (l.set k v).getD j 0 = l.getD j 0 := by
  simp [List.getD_eq_getElem?_getD, List.getElem?_set_ne h]

theorem getD_set_self (l : List Val) (k : Nat) (v : Val) (h : k < l.length) :
    (l.set k v).getD k 0 = v := by
  simp [List.getD_eq_getElem?_getD, List.getElem?_set_self h]

theorem Gradients.step_length (tape : List Function) (g : List Val) (i : Nat) :
    (Gradients.step tape g i).length = g.length := by
  unfold Gradients.step
  rcases tape.getD i .nary with _ | ⟨p, r⟩ | ⟨pp, r⟩
  · rfl
  · simp
  · rcases pp with ⟨x, y⟩ | ⟨x, y⟩ | ⟨x, y⟩ <;> simp

/-- A reverse step for a function that does not reference tape index `j`
leaves the gradient slot `j` unchanged. -/
theorem Gradients.step_getD_not_ref {tape : List Function} {g : List Val} {i j : Nat}
    (h : j ∉ (tape.getD i .nary).refs) :
    (Gradients.step tape g i).getD j 0 = g.getD j 0 := by
  unfold Gradients.step
  rcases hf : tape.getD i .nary with _ | ⟨p, r⟩ | ⟨pp, r⟩
  · rfl
  · rw [hf] at h
    simp only [Function.refs, List.mem_singleton] at h
    exact getD_set_ne _ _ _ _ (Ne.symm h)
  · rw [hf] at h
    rcases pp with ⟨x, y⟩ | ⟨x, y⟩ | ⟨x, y⟩
    · simp only [Function.refs, List.mem_singleton] at h
      exact getD_set_ne _ _ _ _ (Ne.symm h)
    · simp only [Function.refs, List.mem_singleton] at h
      exact getD_set_ne _ _ _ _ (Ne.symm h)
    · simp only [Function.refs, List.mem_cons, List.not_mem_nil, or_false, not_or] at h
      rw [getD_set_ne _ _ _ _ (Ne.symm h.2), getD_set_ne _ _ _ _ (Ne.symm h.1)]

theorem Gradients.revSteps_cons (tape : List Function) (g : List Val) (i : Nat) (idxs : List Nat) :
    Gradients.revSteps tape g (i :: idxs) = Gradients.revSteps tape (Gradients.step tape g i) idxs := rfl

theorem Gradients.revSteps_append (tape : List Function) (g : List Val) (l1 l2 : List Nat) :
    Gradients.revSteps tape g (l1 ++ l2) = Gradients.revSteps tape (Gradients.revSteps tape g l1) l2 :=
  List.foldl_append _ _ _ _

theorem Gradients.revSteps_length (tape : List Function) (g : List Val) (idxs : List Nat) :
    (Gradients.revSteps tape g idxs).length = g.length := by
  induction idxs generalizing g with
  | nil => rfl
  | cons a as ih => rw [Gradients.revSteps_cons, ih, Gradients.step_length]

/-- A whole run of reverse steps over functions none of which references
tape index `j` leaves the gradient slot `j` unchanged. -/
theorem Gradients.revSteps_getD_not_ref {tape : List Function} {g : List Val} {idxs : List Nat}
    {j : Nat} (h : ∀ i ∈ idxs, j ∉ (tape.getD i .nary).refs) :
    (Gradients.revSteps tape g idxs).getD j 0 = g.getD j 0 := by
  induction idxs generalizing g with
  | nil => rfl
  | cons a as ih =>
      rw [Gradients.revSteps_cons, ih (fun i hi => h i (List.mem_cons_of_mem a hi)),
        Gradients.step_getD_not_ref (h a (List.mem_cons_self a as))]

/-- Splitting `List.range'` at an interior position. -/
theorem range'_split (s : Nat) {k n : Nat} (h : k < n) :
    List.range' s n = List.range' s k ++ (s + k) :: List.range' (s + k + 1) (n - k - 1) := by
  have e1 : n - k - 1 + 1 = n - k := by omega
  have e2 : n - k + k = n := by omega
  have h3 := List.range'_append s k (n - k) 1
  rw [one_mul, e2] at h3
  rw [← e1, List.range'_succ] at h3
  rw [← h3]

theorem init_getD_ne (len root j : Nat) (hj : j < len) (hne : j ≠ root) :
    ((List.replicate len (0:Val)).set root 1).getD j 0 = 0 := by
  rw [getD_set_ne _ _ _ _ (Ne.symm hne)]
  simp [List.getD_eq_getElem?_getD, List.getElem?_replicate, hj]

theorem init_getD_root (len root : Nat) (hr : root < len) :
    ((List.replicate len (0:Val)).set root 1).getD root 0 = 1 :=
  getD_set_self _ _ _ (by simpa using hr)

/-- C1: reverse-topological soundness of the backward pass for a unary
chain x to y to z, with unrelated tape entries interleaved. The two
reverse rules have the Jacobian-vector-product shape `df * d(v)` with
local derivative functions `d1`, `d2` applied to the recorded forward
values `vx`, `vy`; after `Gradients::compute` on root `z` the gradient
slot of `x` holds the analytic chain-rule product `d1 vx * d2 vy`. -/
theorem backward_chain_rule
    (tape : List Function) (ix iy iz : Nat) (vx vy : Val) (d1 d2 : Val → Val)
    (hxy : ix < iy) (hyz : iy < iz) (hzlen : iz < tape.length)
    (hy : tape.getD iy .nary = .unary ⟨vx, ix⟩ (fun df v => df * d1 v))
    (hz : tape.getD iz .nary = .unary ⟨vy, iy⟩ (fun df v => df * d2 v))
    (hclean : ∀ i, i < tape.length → i ≠ iy → i ≠ iz →
      ix ∉ (tape.getD i .nary).refs ∧ iy ∉ (tape.getD i .nary).refs ∧
        iz ∉ (tape.getD i .nary).refs) :
    (Gradients.compute tape iz).getD ix 0 = d1 vx * d2 vy := by
  have hxlen : ix < tape.length := by omega
  have hylen : iy < tape.length := by omega
  have hdec : (List.range tape.length).reverse =
      (List.range' (iz + 1) (tape.length - iz - 1)).reverse ++ iz ::
        ((List.range' (iy + 1) (iz - iy - 1)).reverse ++ iy :: (List.range' 0 iy).reverse) := by
    rw [List.range_eq_range', range'_split 0 (show iy < tape.length by omega)]
    rw [range'_split (0 + iy + 1) (show iz - iy - 1 < tape.length - iy - 1 by omega)]
    have e1 : 0 + iy + 1 + (iz - iy - 1) = iz := by omega
    have e2 : tape.length - iy - 1 - (iz - iy - 1) - 1 = tape.length - iz - 1 := by omega
    rw [e1, e2]
    simp [List.reverse_append]
  rw [Gradients.compute, hdec, Gradients.revSteps_append, Gradients.revSteps_cons,
    Gradients.revSteps_append, Gradients.revSteps_cons]
  set g0 : List Val := (List.replicate tape.length 0).set iz 1 with hg0
  set gA : List Val := Gradients.revSteps tape g0 (List.range' (iz + 1) (tape.length - iz - 1)).reverse with hgA
  have hAmem : ∀ i ∈ (List.range' (iz + 1) (tape.length - iz - 1)).reverse,
      ix ∉ (tape.getD i .nary).refs ∧ iy ∉ (tape.getD i .nary).refs ∧
        iz ∉ (tape.getD i .nary).refs := by
    intro i hi
    rw [List.mem_reverse, List.mem_range'_1] at hi
    exact hclean i (by omega) (by omega) (by omega)
  have hgAlen : gA.length = tape.length := by
    rw [hgA, Gradients.revSteps_length, hg0, List.length_set, List.length_replicate]
  have hgAx : gA.getD ix 0 = 0 := by
    rw [hgA, Gradients.revSteps_getD_not_ref (fun i hi => (hAmem i hi).1), hg0]
    exact init_getD_ne _ _ _ hxlen (by omega)
  have hgAy : gA.getD iy 0 = 0 := by
    rw [hgA, Gradients.revSteps_getD_not_ref (fun i hi => (hAmem i hi).2.1), hg0]
    exact init_getD_ne _ _ _ hylen (by omega)
  have hgAz : gA.getD iz 0 = 1 := by
    rw [hgA, Gradients.revSteps_getD_not_ref (fun i hi => (hAmem i hi).2.2), hg0]
    exact init_getD_root _ _ hzlen
  have hstepz : Gradients.step tape gA iz = gA.set iy (gA.getD iy 0 + gA.getD iz 0 * d2 vy) := by
    unfold Gradients.step
    rw [hz]
  rw [hstepz, hgAy, hgAz]
  set gB0 : List Val := gA.set iy (0 + 1 * d2 vy) with hgB0
  set gB : List Val := Gradients.revSteps tape gB0 (List.range' (iy + 1) (iz - iy - 1)).reverse with hgB
  have hBmem : ∀ i ∈ (List.range' (iy + 1) (iz - iy - 1)).reverse,
      ix ∉ (tape.getD i .nary).refs ∧ iy ∉ (tape.getD i .nary).refs := by
    intro i hi
    rw [List.mem_reverse, List.mem_range'_1] at hi
    exact ⟨(hclean i (by omega) (by omega) (by omega)).1,
      (hclean i (by omega) (by omega) (by omega)).2.1⟩
  have hgBx : gB.getD ix 0 = 0 := by
    rw [hgB, Gradients.revSteps_getD_not_ref (fun i hi => (hBmem i hi).1), hgB0,
      getD_set_ne _ _ _ _ (by omega), hgAx]
  have hgBy : gB.getD iy 0 = 0 + 1 * d2 vy := by
    rw [hgB, Gradients.revSteps_getD_not_ref (fun i hi => (hBmem i hi).2), hgB0,
      getD_set_self _ _ _ (by omega)]
  have hstepy : Gradients.step tape gB iy = gB.set ix (gB.getD ix 0 + gB.getD iy 0 * d1 vx) := by
    unfold Gradients.step
    rw [hy]
  rw [hstepy, hgBx, hgBy]
  have hgBlen : gB.length = tape.length := by
    rw [hgB, Gradients.revSteps_length, hgB0, List.length_set, hgAlen]
  have hCmem : ∀ i ∈ (List.range' 0 iy).reverse, ix ∉ (tape.getD i .nary).refs := by
    intro i hi
    rw [List.mem_reverse, List.mem_range'_1] at hi
    exact (hclean i (by omega) (by omega) (by omega)).1
  rw [Gradients.revSteps_getD_not_ref hCmem, getD_set_self _ _ _ (by omega)]
  ring


theorem backward_chain_rule_witness : (Gradients.compute chainTape 4).getD 0 0 = 192 := by
  have h := backward_chain_rule chainTape 0 2 4 2 4 (fun v => v + v) (fun v => 3 * v * v)
    (by decide) (by decide) (by decide) rfl rfl (by
      intro i hi hne2 hne4
      simp only [chainTape, List.length_cons, List.length_nil] at hi
      interval_cases i <;> simp_all [chainTape, Function.refs])
  norm_num at h
  exact h

/-- C2: additive accumulation. A tracked value x (slot ix) is consumed by
two independent unary consumers u = f(x) and v = g(x), combined by the
addition node z = u + v (whose reverse rule passes the adjoint through to
both parameters, as recorded by `add`). After `Gradients::compute` on z the
gradient slot of x holds the sum of the local partials of both consumers
`dF vx + dG vx`: each reverse rule adds its partial into the ancestor slot
instead of overwriting it. -/
theorem backward_additive_accumulation
    (tape : List Function) (ix iu iv iz : Nat) (vx vu vv : Val) (dF dG : Val → Val)
    (hxu : ix < iu) (huv : iu < iv) (hvz : iv < iz) (hzlen : iz < tape.length)
    (hu : tape.getD iu .nary = .unary ⟨vx, ix⟩ (fun df v => df * dF v))
    (hv : tape.getD iv .nary = .unary ⟨vx, ix⟩ (fun df v => df * dG v))
    (hz : tape.getD iz .nary =
      .binary (.variableVariable ⟨vu, iu⟩ ⟨vv, iv⟩) (fun df _ _ => (df, df)))
    (hclean : ∀ i, i < tape.length → i ≠ iu → i ≠ iv → i ≠ iz →
      ix ∉ (tape.getD i .nary).refs ∧ iu ∉ (tape.getD i .nary).refs ∧
        iv ∉ (tape.getD i .nary).refs ∧ iz ∉ (tape.getD i .nary).refs) :
    (Gradients.compute tape iz).getD ix 0 = dF vx + dG vx := by
  have hxlen : ix < tape.length := by omega
  have hulen : iu < tape.length := by omega
  have hvlen : iv < tape.length := by omega
  have hdec : (List.range tape.length).reverse =
      (List.range' (iz + 1) (tape.length - iz - 1)).reverse ++ iz ::
        ((List.range' (iv + 1) (iz - iv - 1)).reverse ++ iv ::
          ((List.range' (iu + 1) (iv - iu - 1)).reverse ++ iu :: (List.range' 0 iu).reverse)) := by
    rw [List.range_eq_range', range'_split 0 (show iu < tape.length by omega)]
    rw [range'_split (0 + iu + 1) (show iv - iu - 1 < tape.length - iu - 1 by omega)]
    have e1 : 0 + iu + 1 + (iv - iu - 1) = iv := by omega
    have e2 : tape.length - iu - 1 - (iv - iu - 1) - 1 = tape.length - iv - 1 := by omega
    rw [e1, e2]
    rw [range'_split (iv + 1) (show iz - iv - 1 < tape.length - iv - 1 by omega)]
    have e3 : iv + 1 + (iz - iv - 1) = iz := by omega
    have e4 : tape.length - iv - 1 - (iz - iv - 1) - 1 = tape.length - iz - 1 := by omega
    rw [e3, e4]
    simp [List.reverse_append]
  rw [Gradients.compute, hdec, Gradients.revSteps_append, Gradients.revSteps_cons,
    Gradients.revSteps_append, Gradients.revSteps_cons, Gradients.revSteps_append,
    Gradients.revSteps_cons]
  set g0 : List Val := (List.replicate tape.length 0).set iz 1 with hg0
  set gA : List Val :=
    Gradients.revSteps tape g0 (List.range' (iz + 1) (tape.length - iz - 1)).reverse with hgA
  have hAmem : ∀ i ∈ (List.range' (iz + 1) (tape.length - iz - 1)).reverse,
      ix ∉ (tape.getD i .nary).refs ∧ iu ∉ (tape.getD i .nary).refs ∧
        iv ∉ (tape.getD i .nary).refs ∧ iz ∉ (tape.getD i .nary).refs := by
    intro i hi
    rw [List.mem_reverse, List.mem_range'_1] at hi
    exact hclean i (by omega) (by omega) (by omega) (by omega)
  have hgAlen : gA.length = tape.length := by
    rw [hgA, Gradients.revSteps_length, hg0, List.length_set, List.length_replicate]
  have hgAx : gA.getD ix 0 = 0 := by
    rw [hgA, Gradients.revSteps_getD_not_ref (fun i hi => (hAmem i hi).1), hg0]
    exact init_getD_ne _ _ _ hxlen (by omega)
  have hgAu : gA.getD iu 0 = 0 := by
    rw [hgA, Gradients.revSteps_getD_not_ref (fun i hi => (hAmem i hi).2.1), hg0]
    exact init_getD_ne _ _ _ hulen (by omega)
  have hgAv : gA.getD iv 0 = 0 := by
    rw [hgA, Gradients.revSteps_getD_not_ref (fun i hi => (hAmem i hi).2.2.1), hg0]
    exact init_getD_ne _ _ _ hvlen (by omega)
  have hgAz : gA.getD iz 0 = 1 := by
    rw [hgA, Gradients.revSteps_getD_not_ref (fun i hi => (hAmem i hi).2.2.2), hg0]
    exact init_getD_root _ _ hzlen
  have hstepz : Gradients.step tape gA iz =
      (gA.set iu (gA.getD iu 0 + 1)).set iv ((gA.set iu (gA.getD iu 0 + 1)).getD iv 0 + 1) := by
    unfold Gradients.step
    rw [hz, hgAz]
  rw [hstepz, hgAu, getD_set_ne _ _ _ _ (by omega), hgAv]
  set gB0 : List Val := (gA.set iu (0 + 1)).set iv (0 + 1) with hgB0
  set gB : List Val :=
    Gradients.revSteps tape gB0 (List.range' (iv + 1) (iz - iv - 1)).reverse with hgB
  have hBmem : ∀ i ∈ (List.range' (iv + 1) (iz - iv - 1)).reverse,
      ix ∉ (tape.getD i .nary).refs ∧ iu ∉ (tape.getD i .nary).refs ∧
        iv ∉ (tape.getD i .nary).refs := by
    intro i hi
    rw [List.mem_reverse, List.mem_range'_1] at hi
    have := hclean i (by omega) (by omega) (by omega) (by omega)
    exact ⟨this.1, this.2.1, this.2.2.1⟩
  have hgBlen : gB.length = tape.length := by
    rw [hgB, Gradients.revSteps_length, hgB0, List.length_set, List.length_set, hgAlen]
  have hgBx : gB.getD ix 0 = 0 := by
    rw [hgB, Gradients.revSteps_getD_not_ref (fun i hi => (hBmem i hi).1), hgB0,
      getD_set_ne _ _ _ _ (by omega), getD_set_ne _ _ _ _ (by omega), hgAx]
  have hgBu : gB.getD iu 0 = 0 + 1 := by
    rw [hgB, Gradients.revSteps_getD_not_ref (fun i hi => (hBmem i hi).2.1), hgB0,
      getD_set_ne _ _ _ _ (by omega), getD_set_self _ _ _ (by omega)]
  have hgBv : gB.getD iv 0 = 0 + 1 := by
    rw [hgB, Gradients.revSteps_getD_not_ref (fun i hi => (hBmem i hi).2.2), hgB0,
      getD_set_self _ _ _ (by rw [List.length_set]; omega)]
  have hstepv : Gradients.step tape gB iv = gB.set ix (gB.getD ix 0 + gB.getD iv 0 * dG vx) := by
    unfold Gradients.step
    rw [hv]
  rw [hstepv, hgBx, hgBv]
  set gC0 : List Val := gB.set ix (0 + (0 + 1) * dG vx) with hgC0
  set gC : List Val :=
    Gradients.revSteps tape gC0 (List.range' (iu + 1) (iv - iu - 1)).reverse with hgC
  have hCmem : ∀ i ∈ (List.range' (iu + 1) (iv - iu - 1)).reverse,
      ix ∉ (tape.getD i .nary).refs ∧ iu ∉ (tape.getD i .nary).refs := by
    intro i hi
    rw [List.mem_reverse, List.mem_range'_1] at hi
    have := hclean i (by omega) (by omega) (by omega) (by omega)
    exact ⟨this.1, this.2.1⟩
  have hgClen : gC.length = tape.length := by
    rw [hgC, Gradients.revSteps_length, hgC0, List.length_set, hgBlen]
  have hgCx : gC.getD ix 0 = 0 + (0 + 1) * dG vx := by
    rw [hgC, Gradients.revSteps_getD_not_ref (fun i hi => (hCmem i hi).1), hgC0,
      getD_set_self _ _ _ (by omega)]
  have hgCu : gC.getD iu 0 = 0 + 1 := by
    rw [hgC, Gradients.revSteps_getD_not_ref (fun i hi => (hCmem i hi).2), hgC0,
      getD_set_ne _ _ _ _ (by omega), hgBu]
  have hstepu : Gradients.step tape gC iu = gC.set ix (gC.getD ix 0 + gC.getD iu 0 * dF vx) := by
    unfold Gradients.step
    rw [hu]
  rw [hstepu, hgCx, hgCu]
  have hDmem : ∀ i ∈ (List.range' 0 iu).reverse, ix ∉ (tape.getD i .nary).refs := by
    intro i hi
    rw [List.mem_reverse, List.mem_range'_1] at hi
    exact (hclean i (by omega) (by omega) (by omega) (by omega)).1
  rw [Gradients.revSteps_getD_not_ref hDmem, getD_set_self _ _ _ (by omega)]
  ring


section TapeLemmas

open Mushin.Graph

/-- Looking up in an `insertSorted` result: the inserted value on its key,
the old content elsewhere. -/
theorem find_insertSorted (k j : NodeId) (v : Node) (l : List (NodeId × Node)) :
    ((insertSorted k v l).find? (fun e => e.1 == j)).map Prod.snd =
      if j = k then some v else (l.find? (fun e => e.1 == j)).map Prod.snd := by
  induction l with
  | nil =>
      by_cases h : j = k
      · simp [insertSorted, List.find?, h]
      · simp [insertSorted, List.find?, h, Ne.symm h, beq_false_of_ne (Ne.symm h)]
  | cons e rest ih =>
      obtain ⟨k2, v2⟩ := e
      unfold insertSorted
      by_cases h1 : k < k2
      · simp only [if_pos h1]
        by_cases h : j = k
        · simp [List.find?, h]
        · simp [List.find?, beq_false_of_ne (Ne.symm h), h]
      · simp only [if_neg h1]
        by_cases h2 : k = k2
        · simp only [if_pos h2]
          by_cases h : j = k
          · simp [List.find?, h, h2]
          · subst h2
            simp [List.find?, beq_false_of_ne (Ne.symm h), h]
        · simp only [if_neg h2]
          by_cases h : j = k2
          · subst h
            have hjk : j ≠ k := fun hh => h2 hh.symm
            simp [List.find?, hjk]
          · simp [List.find?, beq_false_of_ne (Ne.symm h), ih]

/-- Folding `insertSorted` over a duplicate-free entry list: lookup prefers
the folded entries, falling back on the accumulator. -/
theorem find_foldl_insert (l2 acc : List (NodeId × Node)) (k : NodeId)
    (hnodup : (l2.map Prod.fst).Nodup) :
    (((l2.foldl (fun a e => insertSorted e.1 e.2 a) acc).find? (fun e => e.1 == k)).map
        Prod.snd) =
      ((l2.find? (fun e => e.1 == k)).map Prod.snd).or
        ((acc.find? (fun e => e.1 == k)).map Prod.snd) := by
  induction l2 generalizing acc with
  | nil => simp [List.find?]
  | cons e rest ih =>
      obtain ⟨k2, v2⟩ := e
      simp only [List.map_cons, List.nodup_cons] at hnodup
      rw [List.foldl_cons, ih _ hnodup.2]
      by_cases h : k = k2
      · subst h
        have hrest : rest.find? (fun e => e.1 == k) = none := by
          rw [List.find?_eq_none]
          intro x hx
          simp only [beq_iff_eq]
          intro hk
          exact hnodup.1 (hk ▸ List.mem_map_of_mem Prod.fst hx)
        rw [find_insertSorted]
        simp [List.find?, hrest]
      · rw [find_insertSorted]
        simp [List.find?, beq_false_of_ne (Ne.symm h), h]

/-- Lookup in a merged tape: the entry of the argument tape wins, with the
receiver as fallback (`BTreeMap::extend` overwrites on equal keys). -/
theorem Tape.lookup_merge (t1 t2 : Tape) (hw2 : t2.Wf) (k : NodeId) :
    (t1.merge t2).lookup k = (t2.lookup k).or (t1.lookup k) := by
  have hnodup : (t2.entries.map Prod.fst).Nodup :=
    (List.pairwise_map.mpr hw2).imp ne_of_lt
  exact find_foldl_insert t2.entries t1.entries k hnodup

/-- Inserting an entry already present in a sorted list changes nothing. -/
theorem insertSorted_mem (k : NodeId) (v : Node) (l : List (NodeId × Node))
    (hw : l.Pairwise (fun a b => a.1 < b.1)) (hm : (k, v) ∈ l) :
    insertSorted k v l = l := by
  induction l with
  | nil => cases hm
  | cons e rest ih =>
      obtain ⟨k2, v2⟩ := e
      rw [List.pairwise_cons] at hw
      unfold insertSorted
      rcases List.mem_cons.mp hm with h | h
      · cases h
        simp [lt_irrefl]
      · have hk2 : k2 < k := by simpa using hw.1 _ h
        have h1 : ¬ k < k2 := Nat.lt_asymm hk2
        have h2 : k ≠ k2 := (Nat.ne_of_lt hk2).symm
        simp [h1, h2, ih hw.2 h]

/-- Folding inserts of entries that are all already present changes
nothing. -/
theorem foldl_insert_fixed (l acc : List (NodeId × Node))
    (h : ∀ e ∈ l, insertSorted e.1 e.2 acc = acc) :
    l.foldl (fun a e => insertSorted e.1 e.2 a) acc = acc := by
  induction l with
  | nil => rfl
  | cons e rest ih =>
      rw [List.foldl_cons, h e (List.mem_cons_self e rest)]
      exact ih (fun x hx => h x (List.mem_cons_of_mem e hx))

/-- Merging a well-formed tape with itself gives it back. -/
theorem Tape.merge_self (t : Tape) (hw : t.Wf) : t.merge t = t := by
  show Tape.mk _ = t
  rw [foldl_insert_fixed t.entries t.entries
    (fun e he => insertSorted_mem e.1 e.2 t.entries hw he)]

end TapeLemmas


/-- C6: `Tape::merge` returns the union by id of the two node sets: an id
is present in the merge exactly when it is present in either operand tape,
an id mapped by both tapes to the same shared node keeps that node (one
entry, no duplication), and merging a tape with itself gives the same
tape. -/
theorem tape_merge_union (t1 t2 : Graph.Tape) (hw1 : t1.Wf) (hw2 : t2.Wf) :
    (∀ k, ((t1.merge t2).lookup k).isSome
        = ((t1.lookup k).isSome || (t2.lookup k).isSome))
    ∧ (∀ k v, t1.lookup k = some v → t2.lookup k = some v →
        (t1.merge t2).lookup k = some v)
    ∧ t1.merge t1 = t1 := by
  refine ⟨fun k => ?_, fun k v h1 h2 => ?_, Tape.merge_self t1 hw1⟩
  · rw [Tape.lookup_merge t1 t2 hw2 k, Option.isSome_or, Bool.or_comm]
  · rw [Tape.lookup_merge t1 t2 hw2 k, h2, Option.or_some]

theorem tape_merge_union_witness :
    Graph.Tape.Wf wTapeA ∧ Graph.Tape.Wf wTapeB
    ∧ ((wTapeA.merge wTapeB).lookup 2).isSome
        = ((wTapeA.lookup 2).isSome || (wTapeB.lookup 2).isSome)
    ∧ wTapeA.merge wTapeA = wTapeA :=
  ⟨by decide, by decide,
    (tape_merge_union wTapeA wTapeB (by decide) (by decide)).1 2,
    (tape_merge_union wTapeA wTapeA (by decide) (by decide)).2.2⟩

/-- C10: on colliding ids `Tape::merge` is right-biased — the entry coming
from the argument tape (`other`) wins over the entry of the receiver, because
`BTreeMap::extend` overwrites on equal keys. -/
theorem tape_merge_right_bias (t1 t2 : Graph.Tape) (hw2 : t2.Wf) (k : Graph.NodeId)
    (v : Graph.Node) (h : t2.lookup k = some v) : (t1.merge t2).lookup k = some v := by
  rw [Tape.lookup_merge t1 t2 hw2 k, h, Option.or_some]

theorem tape_merge_right_bias_witness :
    Graph.Tape.Wf wTapeY ∧ wTapeY.lookup 1 = some wNodeY
    ∧ (wTapeX.merge wTapeY).lookup 1 = some wNodeY
    ∧ (wTapeY.merge wTapeX).lookup 1 = some wNodeX
    ∧ wNodeX.data.dims ≠ wNodeY.data.dims :=
  ⟨by decide, rfl,
    tape_merge_right_bias wTapeX wTapeY (by decide) 1 wNodeY rfl,
    tape_merge_right_bias wTapeY wTapeX (by decide) 1 wNodeX rfl,
    by decide⟩

/-- Lookup in a pushed tape: the pushed node under its id, the previous
content elsewhere. -/
theorem Tape.lookup_push (t : Graph.Tape) (n : Graph.Node) (k : Graph.NodeId) :
    (t.push n).lookup k = if k = n.id then some n else t.lookup k :=
  find_insertSorted n.id k n t.entries

/-- C3: dispatch-table conformance. A unary operation on a tracked operand
records a Unary function and is tracked, on an untracked operand it records
nothing and is untracked; a binary operation is tracked exactly when at
least one operand is tracked, records the Binary function matching the
operand combination, and when both operands are untracked it leaves the
tape untouched (no node allocated); in the node generation, the
tracked-tracked combination builds its result tape as the merge of both
operand tapes plus the new node. -/
theorem dispatch_table_conformance :
    (∀ tape f v bwd, (Function.unaryDispatch tape (.function f) v bwd).2.isTracked = true
      ∧ (Function.unaryDispatch tape (.function f) v bwd).1 = tape ++ [.unary ⟨v, f⟩ bwd])
    ∧ (∀ tape v bwd, Function.unaryDispatch tape .none v bwd = (tape, .none))
    ∧ (∀ tape oa va ob vb bwd,
        (Function.binaryDispatch tape oa va ob vb bwd).2.isTracked
          = (oa.isTracked || ob.isTracked))
    ∧ (∀ tape va vb bwd, Function.binaryDispatch tape .none va .none vb bwd = (tape, .none))
    ∧ (∀ tape fa va vb bwd, (Function.binaryDispatch tape (.function fa) va .none vb bwd).1
        = tape ++ [.binary (.variableConstant ⟨va, fa⟩ ⟨vb⟩) bwd])
    ∧ (∀ tape va fb vb bwd, (Function.binaryDispatch tape .none va (.function fb) vb bwd).1
        = tape ++ [.binary (.constantVariable ⟨va⟩ ⟨vb, fb⟩) bwd])
    ∧ (∀ tape fa va fb vb bwd,
        (Function.binaryDispatch tape (.function fa) va (.function fb) vb bwd).1
          = tape ++ [.binary (.variableVariable ⟨va, fa⟩ ⟨vb, fb⟩) bwd])
    ∧ (∀ (x y : Graph.Variable) (c : Nat) (data : Graph.Arr) (r : Graph.BinaryReverseFn)
        (args : List Graph.Arr) (k : Graph.NodeId), x.tape.Wf → y.tape.Wf →
        (((x.push_binary_var y c data r args).1.tape.lookup k).isSome = true ↔
          (k = c ∨ (x.tape.lookup k).isSome = true ∨ (y.tape.lookup k).isSome = true))) := by
  refine ⟨fun tape f v bwd => ⟨rfl, rfl⟩, fun tape v bwd => rfl,
    fun tape oa va ob vb bwd => ?_, fun tape va vb bwd => rfl,
    fun tape fa va vb bwd => rfl, fun tape va fb vb bwd => rfl,
    fun tape fa va fb vb bwd => rfl,
    fun x y c data r args k hw1 hw2 => ?_⟩
  · cases oa <;> cases ob <;> rfl
  · show (((x.tape.merge y.tape).push _).lookup k).isSome = true ↔ _
    rw [Tape.lookup_push, Tape.lookup_merge x.tape y.tape hw2 k,
      show (Graph.Node.binary_varvar c data (x.node.id, y.node.id) r args).1.id = c from rfl]
    by_cases hk : k = c
    · simp [hk]
    · simp only [if_neg hk, Option.isSome_or]
      constructor
      · intro h
        rcases Bool.or_eq_true_iff.mp h with h | h
        · exact Or.inr (Or.inr h)
        · exact Or.inr (Or.inl h)
      · intro h
        rcases h with h | h | h
        · exact absurd h hk
        · exact Bool.or_eq_true_iff.mpr (Or.inr h)
        · exact Bool.or_eq_true_iff.mpr (Or.inl h)


theorem dispatch_table_conformance_witness :
    Graph.Tape.Wf wVarA.tape ∧ Graph.Tape.Wf wVarB.tape
    ∧ (((wVarA.push_binary_var wVarB 5 (Graph.Arr.constant 0 ⟨1, 1, 1, 1⟩) addRev
          []).1.tape.lookup 2).isSome = true ↔
        (2 = 5 ∨ (wVarA.tape.lookup 2).isSome = true ∨ (wVarB.tape.lookup 2).isSome = true)) :=
  ⟨by decide, by decide,
    dispatch_table_conformance.2.2.2.2.2.2.2 wVarA wVarB 5 (Graph.Arr.constant 0 ⟨1, 1, 1, 1⟩)
      addRev [] 2 (by decide) (by decide)⟩


/-- C4 (evaluation at the failing input): after `create a; create b;
drop a; create c` the process holds two simultaneously alive nodes that
both carry id 1, because `impl Drop for Node` decrements the global
counter and the id is handed out again. -/
theorem id_collision_after_drop :
    (Graph.runTrace [.declare unitArr, .declare unitArr, .drop 0, .declare unitArr]).alive.map
        Graph.Node.id = [1, 1]
    ∧ (Graph.runTrace [.declare unitArr, .declare unitArr, .drop 0,
        .declare unitArr]).counter = 2 := by
  constructor <;> rfl

/-- C5 (evaluation at the failing input): create three declarations
(ids 0, 1, 2), drop the first two (counter falls back to 1), then derive a
unary node from the survivor: the new node receives id 1 while its
ancestor keeps id 2, so the ancestor id is larger than the dependent id
and reverse-id tape order would visit the ancestor first. -/
theorem ancestor_id_not_smaller :
    (Graph.runTrace [.declare unitArr, .declare unitArr, .declare unitArr, .drop 0, .drop 0,
        .unaryOn 0 unitArr idRev []]).alive.map (fun n => (n.id, n.ancestorIds))
      = [(2, []), (1, [2])] := by
  rfl

/-- C7: every freshly constructed node — declaration, unary, or any of the
three binary constructors — starts with a gradient accumulator of the same
shape as its data with every element zero, and `Variable::new` stores the
node untouched. -/
theorem new_node_zero_grad (c : Nat) (data : Graph.Arr) (anc : Graph.NodeId)
    (ancs : Graph.NodeId × Graph.NodeId) (ru : Graph.UnaryReverseFn)
    (rb : Graph.BinaryReverseFn) (args : List Graph.Arr) (t : Graph.Tape) (n : Graph.Node) :
    ((Graph.Node.declaration c data).1.grad.dims = data.dims
      ∧ ∀ q ∈ (Graph.Node.declaration c data).1.grad.vals, q = 0)
    ∧ ((Graph.Node.unary c data anc ru args).1.grad.dims = data.dims
      ∧ ∀ q ∈ (Graph.Node.unary c data anc ru args).1.grad.vals, q = 0)
    ∧ ((Graph.Node.binary_varvar c data ancs rb args).1.grad.dims = data.dims
      ∧ ∀ q ∈ (Graph.Node.binary_varvar c data ancs rb args).1.grad.vals, q = 0)
    ∧ ((Graph.Node.binary_varconst c data anc rb args).1.grad.dims = data.dims
      ∧ ∀ q ∈ (Graph.Node.binary_varconst c data anc rb args).1.grad.vals, q = 0)
    ∧ ((Graph.Node.binary_constvar c data anc rb args).1.grad.dims = data.dims
      ∧ ∀ q ∈ (Graph.Node.binary_constvar c data anc rb args).1.grad.vals, q = 0)
    ∧ (Graph.Variable.new t n).node = n :=
  ⟨⟨rfl, fun _ hq => List.eq_of_mem_replicate hq⟩,
    ⟨rfl, fun _ hq => List.eq_of_mem_replicate hq⟩,
    ⟨rfl, fun _ hq => List.eq_of_mem_replicate hq⟩,
    ⟨rfl, fun _ hq => List.eq_of_mem_replicate hq⟩,
    ⟨rfl, fun _ hq => List.eq_of_mem_replicate hq⟩, rfl⟩

/-- C8: the round trip `v.freeze().unfreeze()` keeps the forward data,
produces a tape holding exactly one node, that node is a Declaration, and
its gradient is all-zero with the shape of the data — the original history
is not restored. -/
theorem freeze_unfreeze_round_trip (v : Graph.Variable) (c : Nat) :
    (v.freeze.unfreeze c).1.node.data = v.node.data
    ∧ (v.freeze.unfreeze c).1.tape.entries = [(c, (v.freeze.unfreeze c).1.node)]
    ∧ (v.freeze.unfreeze c).1.node.origin = .declaration
    ∧ (v.freeze.unfreeze c).1.node.grad.dims = v.node.data.dims
    ∧ ∀ q ∈ (v.freeze.unfreeze c).1.node.grad.vals, q = 0 :=
  ⟨rfl, rfl, rfl, rfl, fun _ hq => List.eq_of_mem_replicate hq⟩

/-- C9 (amended): the core graph-building operations (declaration, unary,
binary) only append a fresh node and leave every already-alive node — data
and gradient alike — untouched; the backward pass of the index generation
accumulates into a separate gradients vector; but the step method of the
SGD optimizer does write `data - lr * grad` into the data of its parameter
nodes. `SGD::step` preserves the gradient and id of every node and leaves the data of
non-parameter nodes unchanged. -/
theorem core_ops_never_write_existing_data
    (s : Graph.GraphState) (data : Graph.Arr) (k ka kb : Nat) (ru : Graph.UnaryReverseFn)
    (rb : Graph.BinaryReverseFn) (args : List Graph.Arr) (o : Graph.SGD)
    (store : List Graph.Node) (n : Graph.Node) :
    ((Graph.Event.apply s (.declare data)).alive.take s.alive.length = s.alive)
    ∧ ((Graph.Event.apply s (.unaryOn k data ru args)).alive.take s.alive.length = s.alive)
    ∧ ((Graph.Event.apply s (.binaryOn ka kb data rb args)).alive.take s.alive.length = s.alive)
    ∧ ((o.step store).map Graph.Node.grad = store.map Graph.Node.grad)
    ∧ ((o.step store).map Graph.Node.id = store.map Graph.Node.id)
    ∧ (n ∈ store → n.id ∉ o.params → n ∈ o.step store) := by
  refine ⟨?_, ?_, ?_, ?_, ?_, ?_⟩
  · show ((s.alive ++ _).take s.alive.length = s.alive)
    exact List.take_left _ _
  · show (match s.alive.get? k with
      | some anc => _
      | none => s).alive.take s.alive.length = s.alive
    cases s.alive.get? k
    · exact List.take_length s.alive
    · exact List.take_left _ _
  · show (match s.alive.get? ka, s.alive.get? kb with
      | some anca, some ancb => _
      | _, _ => s).alive.take s.alive.length = s.alive
    cases s.alive.get? ka <;> cases s.alive.get? kb
    · exact List.take_length s.alive
    · exact List.take_length s.alive
    · exact List.take_length s.alive
    · exact List.take_left _ _
  · rw [Graph.SGD.step, List.map_map]
    refine List.map_congr_left fun a _ => ?_
    by_cases h : a.id ∈ o.params <;> simp [h]
  · rw [Graph.SGD.step, List.map_map]
    refine List.map_congr_left fun a _ => ?_
    by_cases h : a.id ∈ o.params <;> simp [h]
  · intro h1 h2
    refine List.mem_map.mpr ⟨n, h1, ?_⟩
    simp [h2]

theorem core_ops_never_write_existing_data_witness :
    wNode0 ∈ ([wNode0] : List Graph.Node)
    ∧ wNode0.id ∉ (Graph.SGD.mk (1/10) []).params
    ∧ wNode0 ∈ (Graph.SGD.mk (1/10) []).step [wNode0] :=
  ⟨List.mem_singleton.mpr rfl, by simp,
    (core_ops_never_write_existing_data ⟨0, []⟩ unitArr 0 0 0 idRev addRev [] ⟨1/10, []⟩
        [wNode0] wNode0).2.2.2.2.2 (List.mem_singleton.mpr rfl) (by simp)⟩


/-- C9 (counterexample to the claim as stated): `SGD::step` is an
operation of the program that writes through `Node::data_mut` into an
data of an existing node: with lr = 1/10 and an all-ones gradient, the data of
the parameter node changes from 1 to 9/10 (the `sgd_step`
test asserts exactly this 1.0 to 0.9 update). -/
theorem sgd_step_writes_data :
    (Graph.SGD.step (Graph.SGD.new [paramNode] (1/10)) [paramNode]).map Graph.Node.data
      = [Graph.Arr.constant (9/10) ⟨1, 1, 1, 1⟩]
    ∧ paramNode.data = Graph.Arr.constant 1 ⟨1, 1, 1, 1⟩ := by
  constructor
  · norm_num [Graph.SGD.step, Graph.SGD.new, paramNode, Graph.Node.declaration,
      Graph.Node.new, Graph.Node.ones_grad, Graph.Node.is_declaration, Graph.Arr.constant,
      Graph.Arr.sub, Graph.Arr.scale, Graph.Dim4.size, List.filter, List.replicate]
  · rfl

theorem backward_additive_accumulation_witness :
    (Gradients.compute fanOutTape 5).getD 0 0 = 11 := by
  have h := backward_additive_accumulation fanOutTape 0 2 4 5 3 9 15
    (fun v => v + v) (fun _ => 5)
    (by decide) (by decide) (by decide) (by decide) rfl rfl rfl (by
      intro i hi hne2 hne4 hne5
      simp only [fanOutTape, List.length_cons, List.length_nil] at hi
      interval_cases i <;> simp_all [fanOutTape, Function.refs])
  norm_num at h
  exact h

end Mushin
